import Mathlib

/-!
# Verification of the docscrypt combined encryption pipeline

Shallow embedding of the cipher core of the docscrypt repository:

* `AffineCipher` — the per-byte affine transform (`src/.../affine.js`),
  with the JavaScript `gcd` loop, the recursive extended Euclidean
  algorithm and the `modInverse` normalisation embedded faithfully
  (JavaScript `%` on numbers is truncated remainder, embedded as
  `Int.tmod` where an operand can be negative).
* `AriaCipher` key/IV normalisation (`src/.../aria.js`): key coercion
  from strings (UTF-8 encoding of the padded/truncated character
  sequence, as `Buffer.from(str, 'utf8')` produces) and from buffers,
  and 16-byte IV normalisation.
* CBC mode with PKCS#7 padding over an abstract block permutation:
  the repository calls Node's `crypto.createCipheriv('aes-128-cbc', …)`
  with automatic padding; the AES-128 block primitive itself is library
  code outside the repository, so encryption/decryption of a single
  16-byte block is a parameter `E? / D?` of every definition, while the
  chaining, padding and padding-validation structure is concrete.
* `CombinedEncryption` (`src/.../combined.js`): affine stage then block
  stage, with metadata (sizes, IV, algorithm tag, checksum).  The
  sha-256 digest is Node library code, abstracted as a parameter `H?`;
  checksums are compared as digests (hex encoding of a byte sequence is
  injective, so hex-string equality agrees with digest equality).
* `FileHandler` container framing (`src/.../fileHandler.js`):
  `[16-byte IV][ciphertext]` concatenation, standalone decryption by
  slicing, the minimum-length guard, and the checksum verification of
  the stored-file decryption path.

Buffers are `List Nat` with bytes understood to be `< 256`; writing a
value into a JavaScript `Buffer` cell truncates it modulo 256, which the
buffer-level maps reproduce.
-/

/-! ## Affine cipher (src/unnamed/part_003, `affine.js`) -/

/-- The JavaScript `gcd(a, b)` loop of `AffineCipher`:
`while (b !== 0) { [a, b] = [b, a % b] }; return a`. -/
def jsGcd (a b : Nat) : Nat :=
  if b = 0 then a else jsGcd b (a % b)
termination_by b
decreasing_by exact Nat.mod_lt _ (Nat.pos_of_ne_zero (by assumption))

/-- The recursive `extendedGcd(a, b)` of `AffineCipher`, returning
`[gcd, x, y]` with `x*a + y*b = gcd`.  On the constructor's call chain
both arguments stay non-negative, so JavaScript `%` and
`Math.floor(b / a)` coincide with natural-number `%` and `/`; the
Bézout coefficients themselves can be negative and are integers. -/
def extendedGcd (a b : Nat) : Nat × Int × Int :=
  if h : a = 0 then (b, 0, 1)
  else
    let r := extendedGcd (b % a) a
    (r.1, r.2.2 - (b / a : Nat) * r.2.1, r.2.1)
termination_by a
decreasing_by exact Nat.mod_lt _ (Nat.pos_of_ne_zero h)

/-- Source `modInverse(a, m)`: fails when the extended gcd is not 1, otherwise
returns `((x % m) + m) % m` (JavaScript `%` is truncated remainder,
`Int.tmod`). -/
def modInverse (a m : Nat) : Option Nat :=
  let r := extendedGcd a m
  if r.1 ≠ 1 then none
  else some ((Int.tmod (Int.tmod r.2.1 m + m) m).toNat)

/-- The constructed `AffineCipher` object: parameters `a`, `b`, `m` and
the precomputed modular inverse of `a`. -/
structure AffineCipher where
  a : Nat
  b : Nat
  m : Nat
  aInverse : Nat
  deriving DecidableEq, Repr

/-- The `AffineCipher` constructor: throws (here `none`) as soon as
`gcd(a, m) !== 1`, before `modInverse` is invoked; otherwise stores the
parameters together with `modInverse(a, m)`. -/
def AffineCipher.make (a b m : Nat) : Option AffineCipher :=
  if jsGcd a m ≠ 1 then none
  else (modInverse a m).map fun inv => ⟨a, b, m, inv⟩

/-- Source `encryptByte(byte) = (a * byte + b) % m`. -/
def AffineCipher.encryptByte (c : AffineCipher) (x : Nat) : Nat :=
  (c.a * x + c.b) % c.m

/-- Source `decryptByte(byte) = (aInverse * (byte - b + m)) % m`, evaluated in
JavaScript number arithmetic: the subtraction may pass through negative
values, so it is embedded over `Int` with truncated remainder. -/
def AffineCipher.decryptByte (c : AffineCipher) (y : Nat) : Nat :=
  (Int.tmod ((c.aInverse : Int) * ((y : Int) - (c.b : Int) + (c.m : Int))) (c.m : Int)).toNat

/-- Source `encrypt(buffer)`: the per-byte map applied independently to each
byte in order; storing into a `Buffer` cell truncates modulo 256. -/
def AffineCipher.encryptBuf (c : AffineCipher) (buf : List Nat) : List Nat :=
  buf.map fun x => c.encryptByte x % 256

/-- Source `decrypt(buffer)`: the per-byte inverse map applied independently to
each byte in order, truncated modulo 256 by the `Buffer` store. -/
def AffineCipher.decryptBuf (c : AffineCipher) (buf : List Nat) : List Nat :=
  buf.map fun x => c.decryptByte x % 256

/-! ### Correctness of the Euclidean helpers -/

theorem jsGcd_eq_gcd (a b : Nat) : jsGcd a b = Nat.gcd b a := by
  induction a, b using jsGcd.induct with
  | case1 a =>
      rw [jsGcd]
      simp
  | case2 a b h ih =>
      rw [jsGcd, if_neg h, ih]
      exact (Nat.gcd_rec b a).symm

theorem extendedGcd_zero (b : Nat) : extendedGcd 0 b = (b, 0, 1) := by
  rw [extendedGcd]
  rfl

theorem extendedGcd_pos (a b : Nat) (h : a ≠ 0) :
    extendedGcd a b =
      ((extendedGcd (b % a) a).1,
        (extendedGcd (b % a) a).2.2 - (b / a : Nat) * (extendedGcd (b % a) a).2.1,
        (extendedGcd (b % a) a).2.1) := by
  rw [extendedGcd, dif_neg h]

theorem extendedGcd_gcd (a b : Nat) : (extendedGcd a b).1 = Nat.gcd a b := by
  induction a, b using extendedGcd.induct with
  | case1 b =>
      rw [extendedGcd_zero]
      simp
  | case2 a b h ih =>
      rw [extendedGcd_pos a b h]
      show (extendedGcd (b % a) a).1 = Nat.gcd a b
      rw [Nat.gcd_rec a b]
      exact ih

theorem extendedGcd_bezout (a b : Nat) :
    (extendedGcd a b).2.1 * (a : Int) + (extendedGcd a b).2.2 * (b : Int)
      = ((extendedGcd a b).1 : Int) := by
  induction a, b using extendedGcd.induct with
  | case1 b =>
      rw [extendedGcd_zero]
      show (0 : Int) * ((0 : Nat) : Int) + 1 * (b : Int) = (b : Int)
      ring
  | case2 a b h ih =>
      rw [extendedGcd_pos a b h]
      have hmod : ((b % a : Nat) : Int) = (b : Int) - (b / a : Nat) * (a : Int) := by
        have h2 : ((b % a : Nat) : Int) + ((a : Int)) * ((b / a : Nat) : Int) = (b : Int) := by
          exact_mod_cast congrArg (Nat.cast : Nat → Int) (Nat.mod_add_div b a)
        linarith [h2]
      set r := extendedGcd (b % a) a with hr
      have ih' : r.2.1 * ((b % a : Nat) : Int) + r.2.2 * (a : Int) = (r.1 : Int) := ih
      rw [hmod] at ih'
      show (r.2.2 - (b / a : Nat) * r.2.1) * (a : Int) + r.2.1 * (b : Int) = (r.1 : Int)
      nlinarith [ih']

/-! ### Correctness of `modInverse` -/

theorem tmod_gt_neg (x m : Int) (hm : 0 < m) : -m < Int.tmod x m := by
  cases x with
  | ofNat n =>
      have h1 : (0 : Int) ≤ Int.tmod (Int.ofNat n) m :=
        Int.tmod_nonneg m (by exact Int.natCast_nonneg n)
      linarith
  | negSucc n =>
      obtain ⟨k, rfl⟩ : ∃ k : Nat, m = (k : Int) := ⟨m.toNat, (Int.toNat_of_nonneg hm.le).symm⟩
      have hk : 0 < k := by exact_mod_cast hm
      show -(k : Int) < Int.tmod (Int.negSucc n) (Int.ofNat k)
      have h2 : Int.tmod (Int.negSucc n) (Int.ofNat k) = -(((n + 1) % k : Nat) : Int) := rfl
      rw [h2]
      have h3 : (n + 1) % k < k := Nat.mod_lt _ hk
      omega

theorem tmod_modEq (x m : Int) : Int.ModEq m (Int.tmod x m) x := by
  have h := Int.tmod_add_tdiv x m
  have h2 : Int.tmod x m = x + m * (-(Int.tdiv x m)) := by linarith
  calc Int.tmod x m = x + m * (-(Int.tdiv x m)) := h2
    _ ≡ x [ZMOD m] := Int.modEq_iff_dvd.mpr (by ring_nf; exact Dvd.intro _ rfl)

theorem modInverse_spec (a m : Nat) (hm : 0 < m) (h : Nat.gcd a m = 1) :
    ∃ v : Nat, modInverse a m = some v ∧
      Int.ModEq (m : Int) ((a : Int) * (v : Int)) 1 := by
  have hg : (extendedGcd a m).1 = 1 := by rw [extendedGcd_gcd]; exact h
  set x := (extendedGcd a m).2.1 with hx
  set y := (extendedGcd a m).2.2 with hy
  have hbez : x * (a : Int) + y * (m : Int) = 1 := by
    have hb := extendedGcd_bezout a m
    rw [hg] at hb
    exact_mod_cast hb
  have hmZ : (0 : Int) < (m : Int) := by exact_mod_cast hm
  set d : Int := Int.tmod x m + m with hd
  have hd0 : 0 ≤ d := by
    have := tmod_gt_neg x m hmZ
    omega
  set w : Int := Int.tmod d m with hw
  have hw0 : 0 ≤ w := Int.tmod_nonneg m hd0
  refine ⟨w.toNat, ?_, ?_⟩
  · rw [modInverse]
    simp only [hg]
    rfl
  · have hcast : ((w.toNat : Nat) : Int) = w := Int.toNat_of_nonneg hw0
    have hwx : Int.ModEq (m : Int) w x := by
      calc w ≡ d [ZMOD (m : Int)] := tmod_modEq d m
        _ = Int.tmod x m + m := rfl
        _ ≡ Int.tmod x m + 0 [ZMOD (m : Int)] := by
              exact Int.ModEq.add_left _ (Int.modEq_zero_iff_dvd.mpr dvd_rfl)
        _ = Int.tmod x m := by ring
        _ ≡ x [ZMOD (m : Int)] := tmod_modEq x m
    have hax : Int.ModEq (m : Int) ((a : Int) * x) 1 := by
      calc (a : Int) * x = x * a + m * 0 := by ring
        _ ≡ x * a + m * y [ZMOD (m : Int)] := by
              exact Int.ModEq.add_left _ (Int.modEq_iff_dvd.mpr ⟨y, by ring⟩)
        _ = x * a + y * m := by ring
        _ = 1 := hbez
    calc (a : Int) * (w.toNat : Int) = (a : Int) * w := by rw [hcast]
      _ ≡ (a : Int) * x [ZMOD (m : Int)] := Int.ModEq.mul_left _ hwx
      _ ≡ 1 [ZMOD (m : Int)] := hax

/-! ### The constructed cipher object -/

theorem make_none_of_gcd_ne_one (a b m : Nat) (h : Nat.gcd a m ≠ 1) :
    AffineCipher.make a b m = none := by
  rw [AffineCipher.make, if_pos]
  rw [jsGcd_eq_gcd, Nat.gcd_comm]
  exact h

theorem make_spec (a b m : Nat) (hm : 0 < m) (h : Nat.gcd a m = 1) :
    ∃ c : AffineCipher, AffineCipher.make a b m = some c ∧
      c.a = a ∧ c.b = b ∧ c.m = m ∧
      Int.ModEq (m : Int) ((a : Int) * (c.aInverse : Int)) 1 := by
  obtain ⟨v, hv, hmod⟩ := modInverse_spec a m hm h
  refine ⟨⟨a, b, m, v⟩, ?_, rfl, rfl, rfl, hmod⟩
  rw [AffineCipher.make, if_neg, hv]
  · rfl
  · rw [jsGcd_eq_gcd, Nat.gcd_comm]
    simp [h]

/-- Per-byte round trip: for a cipher object whose precomputed inverse
really inverts `a` modulo `m`, `decryptByte` undoes `encryptByte` on
every byte below `m`, provided `b < m`. -/
theorem decryptByte_encryptByte (c : AffineCipher)
    (hinv : Int.ModEq (c.m : Int) ((c.a : Int) * (c.aInverse : Int)) 1)
    (hb : c.b < c.m) (x : Nat) (hx : x < c.m) :
    c.decryptByte (c.encryptByte x) = x := by
  have hm : 0 < c.m := Nat.lt_of_le_of_lt (Nat.zero_le _) hb
  have hmZ : (0 : Int) < (c.m : Int) := by exact_mod_cast hm
  set e : Nat := c.encryptByte x with he
  set N : Int := (c.aInverse : Int) * ((e : Int) - (c.b : Int) + (c.m : Int)) with hN
  have heb : (0 : Int) ≤ (e : Int) - (c.b : Int) + (c.m : Int) := by
    have : (c.b : Int) < (c.m : Int) := by exact_mod_cast hb
    have : (0 : Int) ≤ (e : Int) := Int.natCast_nonneg e
    omega
  have hN0 : 0 ≤ N := mul_nonneg (Int.natCast_nonneg _) heb
  have htmod : Int.tmod N (c.m : Int) = N % (c.m : Int) :=
    Int.tmod_eq_emod hN0 hmZ.le
  have hcongE : Int.ModEq (c.m : Int) (e : Int) ((c.a : Int) * (x : Int) + (c.b : Int)) := by
    have : (e : Int) = ((c.a : Int) * (x : Int) + (c.b : Int)) % (c.m : Int) := by
      rw [he, AffineCipher.encryptByte]
      push_cast
      rfl
    rw [this]
    exact Int.emod_emod_of_dvd _ dvd_rfl
  have hNx : Int.ModEq (c.m : Int) N (x : Int) := by
    calc N ≡ (c.aInverse : Int) * (((c.a : Int) * (x : Int) + (c.b : Int)) - (c.b : Int) + (c.m : Int))
          [ZMOD (c.m : Int)] := by
            exact Int.ModEq.mul_left _ (Int.ModEq.add_right _ (Int.ModEq.sub_right _ hcongE))
      _ = ((c.a : Int) * (c.aInverse : Int)) * (x : Int) + (c.aInverse : Int) * (c.m : Int) := by
            ring
      _ ≡ ((c.a : Int) * (c.aInverse : Int)) * (x : Int) + 0 [ZMOD (c.m : Int)] := by
            exact Int.ModEq.add_left _ (Int.modEq_iff_dvd.mpr ⟨-(c.aInverse : Int), by ring⟩)
      _ = ((c.a : Int) * (c.aInverse : Int)) * (x : Int) := by ring
      _ ≡ 1 * (x : Int) [ZMOD (c.m : Int)] := Int.ModEq.mul_right _ hinv
      _ = (x : Int) := by ring
  have hfinal : Int.tmod N (c.m : Int) = (x : Int) := by
    rw [htmod]
    have hx' : (x : Int) % (c.m : Int) = (x : Int) :=
      Int.emod_eq_of_lt (Int.natCast_nonneg x) (by exact_mod_cast hx)
    calc N % (c.m : Int) = (x : Int) % (c.m : Int) := hNx
      _ = (x : Int) := hx'
  show (Int.tmod N (c.m : Int)).toNat = x
  rw [hfinal]
  exact Int.toNat_natCast x

/-- The cipher object the pipeline constructs with the default
parameters `a = 5`, `b = 8`, `m = 256`: the precomputed inverse of 5
modulo 256 is 205. -/
def aff58 : AffineCipher := ⟨5, 8, 256, 205⟩

theorem make_aff58 : AffineCipher.make 5 8 256 = some aff58 := by
  simp [AffineCipher.make, modInverse, jsGcd, extendedGcd, aff58]
  decide

/-- C2: for every affine parameter pair `(a, b)` with `a` coprime to 256
and `0 ≤ b < 256`, and every byte `x < 256`, the cipher object built by
the constructor (which precomputes the modular inverse of `a` mod 256
with the extended Euclidean algorithm) satisfies
`decryptByte (encryptByte x) = x`. -/
theorem affine_byte_roundtrip (a b x : Nat) (c : AffineCipher)
    (ha : Nat.gcd a 256 = 1) (hb : b < 256) (hx : x < 256)
    (hc : AffineCipher.make a b 256 = some c) :
    c.decryptByte (c.encryptByte x) = x := by
  obtain ⟨c', hc', hca, hcb, hcm, hinv⟩ := make_spec a b 256 (by norm_num) ha
  rw [hc] at hc'
  obtain rfl : c = c' := by injection hc'
  apply decryptByte_encryptByte
  · rw [hca, hcm]
    exact hinv
  · rw [hcb, hcm]
    exact hb
  · rw [hcm]
    exact hx

theorem affine_byte_roundtrip_witness :
    Nat.gcd 5 256 = 1 ∧ 8 < 256 ∧ 65 < 256 ∧
      aff58.decryptByte (aff58.encryptByte 65) = 65 :=
  ⟨by decide, by decide, by decide,
    affine_byte_roundtrip 5 8 65 aff58 (by decide) (by decide) (by decide) make_aff58⟩

/-- C5: for every parameter pair `(a, m)` with `gcd(a, m) ≠ 1`
(in particular every even `a` with `m = 256`), the affine-cipher
constructor fails (the gcd guard throws before `modInverse` runs, which
the definition of `AffineCipher.make` mirrors: the `none` branch is
taken without evaluating `modInverse`). -/
theorem affine_construction_rejects_non_coprime (a b m : Nat)
    (h : Nat.gcd a m ≠ 1) : AffineCipher.make a b m = none :=
  make_none_of_gcd_ne_one a b m h

theorem affine_construction_rejects_non_coprime_witness :
    Nat.gcd 2 256 ≠ 1 ∧ AffineCipher.make 2 0 256 = none :=
  ⟨by decide, affine_construction_rejects_non_coprime 2 0 256 (by decide)⟩

/-- C9: the affine buffer transforms `encrypt` and `decrypt` are
length-preserving and act independently on each byte in order: the byte
at every index of the output is the per-byte function of the byte at the
same index of the input (truncated modulo 256 by the `Buffer` store),
with no chaining between bytes. -/
theorem affine_buffer_pointwise (c : AffineCipher) (buf : List Nat) :
    (c.encryptBuf buf).length = buf.length ∧
    (c.decryptBuf buf).length = buf.length ∧
    (∀ i : Nat, (c.encryptBuf buf)[i]? = (buf[i]?).map fun x => c.encryptByte x % 256) ∧
    (∀ i : Nat, (c.decryptBuf buf)[i]? = (buf[i]?).map fun x => c.decryptByte x % 256) := by
  refine ⟨?_, ?_, ?_, ?_⟩
  · simp [AffineCipher.encryptBuf]
  · simp [AffineCipher.decryptBuf]
  · intro i
    simp [AffineCipher.encryptBuf, List.getElem?_map]
  · intro i
    simp [AffineCipher.decryptBuf, List.getElem?_map]

/-! ## Block cipher wrapper (src/backend/src/services/encryption/aria.js)

The repository runs Node's `crypto.createCipheriv('aes-128-cbc', key, iv)`
with `setAutoPadding(true)`.  The chaining and padding structure below is
the documented semantics of that call (the spec: a 128-bit-block cipher
"in CBC mode with standard (PKCS-style) padding"); the AES-128 block
primitive itself is crypto-library code outside this repository, so every
definition is parametrised by the keyed single-block maps
`Eb` (encrypt one 16-byte block) and `Db` (decrypt one 16-byte block). -/

/-- Modelled from the spec: the XOR of CBC chaining, pointwise on bytes. -/
def zipXor (xs ys : List Nat) : List Nat :=
  List.zipWith (fun x y => x ^^^ y) xs ys

/-- Split a byte sequence into consecutive 16-byte blocks (the last
chunk is shorter when the length is not a multiple of 16). -/
def toBlocks (l : List Nat) : List (List Nat) :=
  if l = [] then [] else l.take 16 :: toBlocks (l.drop 16)
termination_by l.length
decreasing_by
  rename_i hne
  simp only [List.length_drop]
  have hpos : 0 < l.length := List.length_pos.mpr hne
  omega

/-- Modelled from the spec: PKCS#7 padding (Node auto padding) to a
multiple of the 16-byte block size: append
`k = 16 - len % 16` bytes of value `k` (a whole block when the length is
already a multiple of 16). -/
def pkcs7pad (l : List Nat) : List Nat :=
  l ++ List.replicate (16 - l.length % 16) (16 - l.length % 16)

/-- Modelled from the spec: strict PKCS#7 padding removal: the last byte `k` must satisfy
`1 ≤ k ≤ 16` and the last `k` bytes must all equal `k`; otherwise
decryption fails (Node surfaces this as a bad-decrypt error). -/
def pkcs7unpad (l : List Nat) : Option (List Nat) :=
  match l.getLast? with
  | none => none
  | some k =>
      if 1 ≤ k ∧ k ≤ 16 ∧ k ≤ l.length ∧ (l.drop (l.length - k)).all (fun x => x = k)
      then some (l.take (l.length - k))
      else none

/-- Modelled from the spec: CBC encryption of a list of plaintext blocks: each block is XORed
with the previous ciphertext block (the IV for the first) and passed
through the block cipher `Eb`. -/
def cbcEncBlocks (Eb : List Nat → List Nat) : List Nat → List (List Nat) → List (List Nat)
  | _, [] => []
  | prev, blk :: rest =>
      let c := Eb (zipXor prev blk)
      c :: cbcEncBlocks Eb c rest

/-- Modelled from the spec: CBC decryption of a list of ciphertext blocks: each block is passed
through `Db` and XORed with the previous ciphertext block (the IV for
the first). -/
def cbcDecBlocks (Db : List Nat → List Nat) : List Nat → List (List Nat) → List (List Nat)
  | _, [] => []
  | prev, blk :: rest =>
      zipXor prev (Db blk) :: cbcDecBlocks Db blk rest

/-- Modelled from the spec: `AriaCipher.encrypt` delegates to Node's
`createCipheriv('aes-128-cbc', …)` with auto padding (the spec's
PKCS-style padded 128-bit-block CBC): pad, chain, concatenate. -/
def cbcEncrypt (Eb : List Nat → List Nat) (iv data : List Nat) : List Nat :=
  (cbcEncBlocks Eb iv (toBlocks (pkcs7pad data))).flatten

/-- Modelled from the spec: `AriaCipher.decrypt` delegates to Node's
`createDecipheriv` with auto padding.  A ciphertext whose
length is not a multiple of the block size fails, otherwise the chain is
decrypted and the padding strictly checked and removed. -/
def cbcDecrypt (Db : List Nat → List Nat) (iv ct : List Nat) : Option (List Nat) :=
  if ct.length % 16 = 0 then
    pkcs7unpad (cbcDecBlocks Db iv (toBlocks ct)).flatten
  else none

/-- The `aria.js` 16-byte normalisation applied to keys given as buffers
and to IVs: a value of exactly 16 bytes is kept, anything else is copied
into a fresh 16-byte zero buffer (truncating at 16). -/
def normalize16 (l : List Nat) : List Nat :=
  if l.length = 16 then l else l.take 16 ++ List.replicate (16 - l.length) 0

/-- Source `padEnd(n, '0')` on a JavaScript string, over the character list. -/
def padEndZero (s : List Char) (n : Nat) : List Char :=
  s ++ List.replicate (n - s.length) '0'

/-- Modelled from the spec: UTF-8 encoding of one Unicode scalar value, as `Buffer.from(str,
'utf8') ` produces for strings without lone surrogates. -/
def utf8Char (c : Char) : List Nat :=
  let n := c.toNat
  if n < 0x80 then [n]
  else if n < 0x800 then [0xC0 + n / 64, 0x80 + n % 64]
  else if n < 0x10000 then [0xE0 + n / 4096, 0x80 + n / 64 % 64, 0x80 + n % 64]
  else [0xF0 + n / 262144, 0x80 + n / 4096 % 64, 0x80 + n / 64 % 64, 0x80 + n % 64]

/-- UTF-8 encoding of a character sequence. -/
def utf8Encode (s : List Char) : List Nat :=
  (s.map utf8Char).flatten

/-- The `AriaCipher` constructor's key coercion for string keys:
`Buffer.from(key.padEnd(16, '0').substring(0, 16), 'utf8')` — pad the
character sequence to 16 characters, keep the first 16 characters, then
UTF-8 encode. -/
def keyFromString (s : List Char) : List Nat :=
  utf8Encode ((padEndZero s 16).take 16)

/-- The `AriaCipher` constructor's key coercion for buffer keys: a
16-byte buffer is stored as is, any other length is copied into a fresh
16-byte zero buffer. -/
def keyFromBuffer (key : List Nat) : List Nat :=
  normalize16 key

/-! ## Combined pipeline (combined.js) and container framing (fileHandler.js) -/

/-- The metadata record attached by `CombinedEncryption.encrypt`.  The
IV is carried as bytes (the hex round trip of the source is injective on
byte sequences), the checksum as the raw digest bytes, and the
timestamp — an external clock read — is omitted. -/
structure Meta where
  originalSize : Nat
  encryptedSize : Nat
  iv : List Nat
  algorithm : String
  checksum : List Nat
  deriving DecidableEq, Repr

/-- Error taxonomy of the decryption paths: the block layer's
bad-padding failure, the checksum mismatch, and the too-short container. -/
inductive PipelineError where
  | decryptionError : PipelineError
  | integrityError : PipelineError
  | malformedContainer : PipelineError
  deriving DecidableEq, Repr

/-- Source `CombinedEncryption.encrypt`: affine stage first, then the block
cipher in CBC mode on a normalised IV, plus metadata holding the
original size, the ciphertext size, the IV, the fixed algorithm tag and
the sha-256 digest `Hd` of the original plaintext (computed before any
transform).  The caller's `generateIV` supplies `iv`; randomness is
external to the embedding. -/
def combinedEncrypt (Eb Hd : List Nat → List Nat) (c : AffineCipher)
    (iv data : List Nat) : List Nat × Meta :=
  let affineEncrypted := c.encryptBuf data
  let ct := cbcEncrypt Eb (normalize16 iv) affineEncrypted
  (ct,
    { originalSize := data.length
      encryptedSize := ct.length
      iv := normalize16 iv
      algorithm := "aria-128-cbc+affine"
      checksum := Hd data })

/-- Source `CombinedEncryption.decrypt`: block-cipher stage first (CBC with the
supplied IV, normalised), then the affine stage; a block-layer padding
failure aborts. -/
def combinedDecrypt (Db : List Nat → List Nat) (c : AffineCipher)
    (ct iv : List Nat) : Option (List Nat) :=
  (cbcDecrypt Db (normalize16 iv) ct).map fun ariaDecrypted => c.decryptBuf ariaDecrypted

/-- Source `FileHandler.encryptFile`'s stored artifact: the 16-byte IV recorded
in the metadata, prepended to the ciphertext
(`Buffer.concat([ivBuffer, encryptionResult.encrypted])`). -/
def encryptFileContainer (Eb Hd : List Nat → List Nat) (c : AffineCipher)
    (iv data : List Nat) : List Nat :=
  (combinedEncrypt Eb Hd c iv data).2.iv ++ (combinedEncrypt Eb Hd c iv data).1

/-- Source `FileHandler.decryptUploadedFile`'s cipher core: reject containers
shorter than 16 bytes, otherwise slice the first 16 bytes as the IV, the
rest as ciphertext, and run the combined decryption; no metadata is
available on this path, so no checksum is verified. -/
def decryptUploadedFile (Db : List Nat → List Nat) (c : AffineCipher)
    (encryptedData : List Nat) : Except PipelineError (List Nat) :=
  if encryptedData.length < 16 then .error .malformedContainer
  else
    match combinedDecrypt Db c (encryptedData.drop 16) (encryptedData.take 16) with
    | some plain => .ok plain
    | none => .error .decryptionError

/-- Source `FileHandler.decryptFile`'s cipher core: slice the IV off the stored
`[IV][ciphertext]` artifact, run the combined decryption, and — when the
stored metadata carries a checksum — recompute the digest of the
recovered plaintext and fail with the integrity error unless it matches. -/
def decryptStoredFile (Db Hd : List Nat → List Nat) (c : AffineCipher)
    (fileWithIV : List Nat) (checksum : Option (List Nat)) :
    Except PipelineError (List Nat) :=
  match combinedDecrypt Db c (fileWithIV.drop 16) (fileWithIV.take 16) with
  | none => .error .decryptionError
  | some plain =>
      match checksum with
      | some chk => if Hd plain = chk then .ok plain else .error .integrityError
      | none => .ok plain

/-! ### CBC / padding lemmas -/

theorem toBlocks_nil : toBlocks [] = [] := by
  rw [toBlocks]
  simp

theorem toBlocks_ne_nil (l : List Nat) (h : l ≠ []) :
    toBlocks l = l.take 16 :: toBlocks (l.drop 16) := by
  rw [toBlocks, if_neg h]

theorem flatten_toBlocks (l : List Nat) : (toBlocks l).flatten = l := by
  induction l using toBlocks.induct with
  | case1 => rw [toBlocks_nil]; rfl
  | case2 l hne ih =>
      rw [toBlocks_ne_nil l hne]
      simp [List.flatten_cons, ih]

theorem toBlocks_all16 (l : List Nat) (hdvd : 16 ∣ l.length) :
    ∀ blk ∈ toBlocks l, blk.length = 16 := by
  induction l using toBlocks.induct with
  | case1 => rw [toBlocks_nil]; intro blk h; cases h
  | case2 l hne ih =>
      rw [toBlocks_ne_nil l hne]
      have hpos : 0 < l.length := List.length_pos.mpr hne
      have h16 : 16 ≤ l.length := by
        obtain ⟨k, hk⟩ := hdvd
        omega
      intro blk hblk
      rcases List.mem_cons.mp hblk with h | h
      · subst h
        simp [List.length_take]
        omega
      · apply ih _ _ h
        obtain ⟨k, hk⟩ := hdvd
        exact ⟨k - 1, by simp [List.length_drop]; omega⟩

theorem toBlocks_flatten_blocks (bs : List (List Nat))
    (hall : ∀ blk ∈ bs, blk.length = 16) : toBlocks bs.flatten = bs := by
  induction bs with
  | nil => exact toBlocks_nil
  | cons b rest ih =>
      have hb : b.length = 16 := hall b (List.mem_cons_self b rest)
      have hne : (b :: rest).flatten ≠ [] := by
        simp [List.flatten_cons]
        intro hcontr
        rw [hcontr] at hb
        simp at hb
      rw [List.flatten_cons] at hne ⊢
      rw [toBlocks_ne_nil _ hne]
      have htake : (b ++ rest.flatten).take 16 = b := by
        rw [← hb]
        exact List.take_left b rest.flatten
      have hdrop : (b ++ rest.flatten).drop 16 = rest.flatten := by
        rw [← hb]
        exact List.drop_left b rest.flatten
      rw [htake, hdrop, ih fun blk h => hall blk (List.mem_cons_of_mem b h)]

theorem flatten_all16_length (bs : List (List Nat))
    (hall : ∀ blk ∈ bs, blk.length = 16) : bs.flatten.length = 16 * bs.length := by
  induction bs with
  | nil => simp
  | cons b rest ih =>
      have hb : b.length = 16 := hall b (List.mem_cons_self b rest)
      rw [List.flatten_cons]
      simp only [List.length_append, List.length_cons, hb,
        ih fun blk h => hall blk (List.mem_cons_of_mem b h)]
      ring

theorem zipXor_length (xs ys : List Nat) :
    (zipXor xs ys).length = min xs.length ys.length := by
  simp [zipXor]

theorem zipXor_zipXor_self (p b : List Nat) (h : b.length ≤ p.length) :
    zipXor p (zipXor p b) = b := by
  induction b generalizing p with
  | nil => simp [zipXor]
  | cons x rest ih =>
      cases p with
      | nil => simp at h
      | cons y prest =>
          simp only [zipXor, List.zipWith_cons_cons]
          have hx : y ^^^ (y ^^^ x) = x := by
            rw [← Nat.xor_assoc, Nat.xor_self, Nat.zero_xor]
          rw [hx]
          have := ih prest (by simpa using h)
          simpa [zipXor] using this

theorem cbcEncBlocks_all16 (Eb : List Nat → List Nat)
    (hE16 : ∀ blk : List Nat, blk.length = 16 → (Eb blk).length = 16)
    (bs : List (List Nat)) (prev : List Nat) (hprev : prev.length = 16)
    (hall : ∀ blk ∈ bs, blk.length = 16) :
    ∀ cb ∈ cbcEncBlocks Eb prev bs, cb.length = 16 := by
  induction bs generalizing prev with
  | nil => intro cb h; cases h
  | cons blk rest ih =>
      intro cb hcb
      have hblk : blk.length = 16 := hall blk (List.mem_cons_self blk rest)
      have hc : (Eb (zipXor prev blk)).length = 16 := by
        apply hE16
        rw [zipXor_length, hprev, hblk]
        exact Nat.min_self 16
      rw [cbcEncBlocks] at hcb
      rcases List.mem_cons.mp hcb with h | h
      · rw [h]; exact hc
      · exact ih _ hc (fun b hb => hall b (List.mem_cons_of_mem blk hb)) cb h

theorem cbcDecBlocks_cbcEncBlocks (Eb Db : List Nat → List Nat)
    (hE16 : ∀ blk : List Nat, blk.length = 16 → (Eb blk).length = 16)
    (hED : ∀ blk : List Nat, blk.length = 16 → Db (Eb blk) = blk)
    (bs : List (List Nat)) (prev : List Nat) (hprev : prev.length = 16)
    (hall : ∀ blk ∈ bs, blk.length = 16) :
    cbcDecBlocks Db prev (cbcEncBlocks Eb prev bs) = bs := by
  induction bs generalizing prev with
  | nil => rfl
  | cons blk rest ih =>
      have hblk : blk.length = 16 := hall blk (List.mem_cons_self blk rest)
      have hxlen : (zipXor prev blk).length = 16 := by
        rw [zipXor_length, hprev, hblk]
        exact Nat.min_self 16
      rw [cbcEncBlocks, cbcDecBlocks, hED _ hxlen,
        zipXor_zipXor_self prev blk (by omega), ih _ (hE16 _ hxlen)
          (fun b hb => hall b (List.mem_cons_of_mem blk hb))]

theorem pkcs7pad_length (l : List Nat) :
    (pkcs7pad l).length = l.length + (16 - l.length % 16) := by
  simp [pkcs7pad]

theorem pkcs7pad_length_eq (l : List Nat) :
    (pkcs7pad l).length = 16 * (l.length / 16 + 1) := by
  rw [pkcs7pad_length]
  have h1 : l.length % 16 < 16 := Nat.mod_lt _ (by norm_num)
  have h2 : 16 * (l.length / 16) + l.length % 16 = l.length := Nat.div_add_mod _ _
  omega

theorem pkcs7pad_dvd (l : List Nat) : 16 ∣ (pkcs7pad l).length := by
  rw [pkcs7pad_length_eq]
  exact Dvd.intro _ rfl

theorem pkcs7unpad_pkcs7pad (l : List Nat) : pkcs7unpad (pkcs7pad l) = some l := by
  set k := 16 - l.length % 16 with hk
  have hk1 : 1 ≤ k := by
    have : l.length % 16 < 16 := Nat.mod_lt _ (by norm_num)
    omega
  have hk16 : k ≤ 16 := by omega
  have hrep : List.replicate k k ≠ ([] : List Nat) := by
    simp [List.replicate_eq_nil_iff]
    omega
  have hlast : (pkcs7pad l).getLast? = some k := by
    rw [pkcs7pad, ← hk, List.getLast?_append_of_ne_nil l hrep, List.getLast?_replicate]
    rw [if_neg (by omega)]
  have hlen : (pkcs7pad l).length = l.length + k := by
    simp [pkcs7pad, ← hk]
  rw [pkcs7unpad, hlast]
  dsimp only
  have hsub : (pkcs7pad l).length - k = l.length := by omega
  have hdrop : (pkcs7pad l).drop ((pkcs7pad l).length - k) = List.replicate k k := by
    rw [hsub, pkcs7pad, ← hk]
    exact List.drop_left l _
  have htake : (pkcs7pad l).take ((pkcs7pad l).length - k) = l := by
    rw [hsub, pkcs7pad, ← hk]
    exact List.take_left l _
  rw [if_pos]
  · rw [htake]
  · refine ⟨hk1, hk16, by omega, ?_⟩
    rw [hdrop]
    simp [List.all_eq_true, List.mem_replicate]

theorem cbcEncBlocks_length (Eb : List Nat → List Nat) (bs : List (List Nat)) :
    ∀ prev : List Nat, (cbcEncBlocks Eb prev bs).length = bs.length := by
  induction bs with
  | nil => intro prev; rfl
  | cons b rest ih =>
      intro prev
      simp only [cbcEncBlocks, List.length_cons, ih]

theorem cbcEncrypt_length (Eb : List Nat → List Nat)
    (hE16 : ∀ blk : List Nat, blk.length = 16 → (Eb blk).length = 16)
    (iv data : List Nat) (hiv : iv.length = 16) :
    (cbcEncrypt Eb iv data).length = (pkcs7pad data).length := by
  rw [cbcEncrypt]
  have hall := toBlocks_all16 (pkcs7pad data) (pkcs7pad_dvd data)
  have henc := cbcEncBlocks_all16 Eb hE16 (toBlocks (pkcs7pad data)) iv hiv hall
  rw [flatten_all16_length _ henc]
  rw [cbcEncBlocks_length Eb _ iv]
  have h2 := flatten_all16_length _ hall
  rw [flatten_toBlocks] at h2
  omega

theorem cbc_roundtrip (Eb Db : List Nat → List Nat)
    (hE16 : ∀ blk : List Nat, blk.length = 16 → (Eb blk).length = 16)
    (hED : ∀ blk : List Nat, blk.length = 16 → Db (Eb blk) = blk)
    (iv data : List Nat) (hiv : iv.length = 16) :
    cbcDecrypt Db iv (cbcEncrypt Eb iv data) = some data := by
  have hall := toBlocks_all16 (pkcs7pad data) (pkcs7pad_dvd data)
  have henc := cbcEncBlocks_all16 Eb hE16 (toBlocks (pkcs7pad data)) iv hiv hall
  have hctlen : (cbcEncrypt Eb iv data).length % 16 = 0 := by
    rw [cbcEncrypt_length Eb hE16 iv data hiv]
    obtain ⟨k, hk⟩ := pkcs7pad_dvd data
    omega
  rw [cbcDecrypt, if_pos hctlen, cbcEncrypt]
  rw [toBlocks_flatten_blocks _ henc]
  rw [cbcDecBlocks_cbcEncBlocks Eb Db hE16 hED _ iv hiv hall]
  rw [flatten_toBlocks]
  exact pkcs7unpad_pkcs7pad data

/-! ### Pipeline helper lemmas -/

theorem normalize16_length (l : List Nat) : (normalize16 l).length = 16 := by
  rw [normalize16]
  by_cases h : l.length = 16
  · rw [if_pos h]; exact h
  · rw [if_neg h]
    simp [List.length_take, List.length_replicate]
    omega

theorem normalize16_of_length (l : List Nat) (h : l.length = 16) : normalize16 l = l := by
  rw [normalize16, if_pos h]

theorem normalize16_idem (l : List Nat) : normalize16 (normalize16 l) = normalize16 l :=
  normalize16_of_length _ (normalize16_length l)

theorem decryptByte_lt (c : AffineCipher) (hm : 0 < c.m) (y : Nat) :
    c.decryptByte y < c.m := by
  rw [AffineCipher.decryptByte]
  have hmZ : (0 : Int) < (c.m : Int) := by exact_mod_cast hm
  have h := Int.tmod_lt_of_pos ((c.aInverse : Int) * ((y : Int) - (c.b : Int) + (c.m : Int))) hmZ
  omega

theorem encryptByte_lt (c : AffineCipher) (hm : 0 < c.m) (x : Nat) :
    c.encryptByte x < c.m :=
  Nat.mod_lt _ hm

/-- Buffer-level affine round trip for a correctly constructed cipher
with modulus 256: the `% 256` truncation of the `Buffer` store is the
identity on the per-byte outputs, and each byte comes back. -/
theorem decryptBuf_encryptBuf (c : AffineCipher)
    (hinv : Int.ModEq (c.m : Int) ((c.a : Int) * (c.aInverse : Int)) 1)
    (hb : c.b < c.m) (hm256 : c.m = 256)
    (B : List Nat) (hB : ∀ x ∈ B, x < 256) :
    c.decryptBuf (c.encryptBuf B) = B := by
  have hm : 0 < c.m := by omega
  rw [AffineCipher.encryptBuf, AffineCipher.decryptBuf, List.map_map]
  induction B with
  | nil => rfl
  | cons x rest ih =>
      rw [List.map_cons]
      have hx : x < 256 := hB x (List.mem_cons_self x rest)
      have he : c.encryptByte x % 256 = c.encryptByte x := by
        have := encryptByte_lt c hm x
        omega
      have hd : c.decryptByte (c.encryptByte x) = x := by
        apply decryptByte_encryptByte c hinv hb
        omega
      have hdlt : c.decryptByte (c.encryptByte x) % 256 = x := by
        rw [hd]
        omega
      have htail := ih fun y hy => hB y (List.mem_cons_of_mem x hy)
      simp only [Function.comp] at htail ⊢
      rw [he, hdlt, htail]

/-- Core round trip of the combined pipeline: decrypting the ciphertext
of `combinedEncrypt` with the normalised IV recovers the plaintext. -/
theorem pipelineRoundtripAux (Eb Db Hd : List Nat → List Nat)
    (hE16 : ∀ blk : List Nat, blk.length = 16 → (Eb blk).length = 16)
    (hED : ∀ blk : List Nat, blk.length = 16 → Db (Eb blk) = blk)
    (c : AffineCipher)
    (hinv : Int.ModEq (c.m : Int) ((c.a : Int) * (c.aInverse : Int)) 1)
    (hb : c.b < c.m) (hm256 : c.m = 256)
    (iv B : List Nat) (hB : ∀ x ∈ B, x < 256) :
    combinedDecrypt Db c (combinedEncrypt Eb Hd c iv B).1
      (combinedEncrypt Eb Hd c iv B).2.iv = some B := by
  show combinedDecrypt Db c (cbcEncrypt Eb (normalize16 iv) (c.encryptBuf B))
    (normalize16 iv) = some B
  rw [combinedDecrypt, normalize16_idem]
  rw [cbc_roundtrip Eb Db hE16 hED (normalize16 iv) (c.encryptBuf B) (normalize16_length iv)]
  exact congrArg some (decryptBuf_encryptBuf c hinv hb hm256 B hB)

/-- Extract the cipher-object facts from a successful `make` at modulus
256. -/
theorem make256_facts (a b : Nat) (c : AffineCipher)
    (ha : Nat.gcd a 256 = 1) (hb : b < 256)
    (hc : AffineCipher.make a b 256 = some c) :
    Int.ModEq (c.m : Int) ((c.a : Int) * (c.aInverse : Int)) 1 ∧ c.b < c.m ∧ c.m = 256 := by
  obtain ⟨c', hc', hca, hcb, hcm, hinv⟩ := make_spec a b 256 (by norm_num) ha
  rw [hc] at hc'
  obtain rfl : c = c' := by injection hc'
  refine ⟨?_, ?_, hcm⟩
  · rw [hca, hcm]
    exact hinv
  · rw [hcb, hcm]
    exact hb

/-! ## The claims -/

/-- C1: for every byte buffer `B` (including the empty buffer), running
the combined pipeline's encrypt on `B` and then its decrypt on the
resulting ciphertext with the IV recorded in the returned metadata
yields exactly `B`; by the definitions of `combinedEncrypt` (affine
stage first, block stage second) and `combinedDecrypt` (block stage
first, affine stage second), the decryption undoes the two stages in the
reverse of the fixed encryption order.  Stated for any block cipher
`Eb`/`Db` that maps 16-byte blocks to 16-byte blocks and inverts on
them, any digest `Hd`, and any affine parameters accepted by the
constructor at modulus 256 with `b < 256`. -/
theorem combined_pipeline_roundtrip
    (Eb Db Hd : List Nat → List Nat)
    (hE16 : ∀ blk : List Nat, blk.length = 16 → (Eb blk).length = 16)
    (hED : ∀ blk : List Nat, blk.length = 16 → Db (Eb blk) = blk)
    (a b : Nat) (c : AffineCipher) (ha : Nat.gcd a 256 = 1) (hb : b < 256)
    (hc : AffineCipher.make a b 256 = some c)
    (iv B : List Nat) (hB : ∀ x ∈ B, x < 256) :
    combinedDecrypt Db c (combinedEncrypt Eb Hd c iv B).1
      (combinedEncrypt Eb Hd c iv B).2.iv = some B := by
  obtain ⟨hinv, hbm, hm256⟩ := make256_facts a b c ha hb hc
  exact pipelineRoundtripAux Eb Db Hd hE16 hED c hinv hbm hm256 iv B hB

theorem combined_pipeline_roundtrip_witness :
    Nat.gcd 5 256 = 1 ∧ 8 < 256 ∧
    combinedDecrypt id aff58
      (combinedEncrypt id id aff58 (List.replicate 16 0) [72, 105, 33]).1
      (combinedEncrypt id id aff58 (List.replicate 16 0) [72, 105, 33]).2.iv
      = some [72, 105, 33] :=
  ⟨by decide, by decide,
    combined_pipeline_roundtrip id id id (fun _ h => h) (fun _ _ => rfl)
      5 8 aff58 (by decide) (by decide) make_aff58
      (List.replicate 16 0) [72, 105, 33] (by decide)⟩

/-- C6: the metadata returned by the combined pipeline's encrypt has
`checksum` equal to the digest of the original plaintext `B` (computed
before any transform — in particular, not of the affine-transformed
buffer), `originalSize` equal to `B`'s length, and the fixed algorithm
tag string identifying the two-stage scheme. -/
theorem combined_metadata_contents (Eb Hd : List Nat → List Nat)
    (c : AffineCipher) (iv B : List Nat) :
    (combinedEncrypt Eb Hd c iv B).2.checksum = Hd B ∧
    (combinedEncrypt Eb Hd c iv B).2.originalSize = B.length ∧
    (combinedEncrypt Eb Hd c iv B).2.algorithm = "aria-128-cbc+affine" :=
  ⟨rfl, rfl, rfl⟩

/-- C10: the ciphertext of the combined pipeline has length exactly
`16 * (len / 16 + 1) = len + 16 - len % 16`: a positive multiple of 16,
strictly greater than the plaintext length, and recorded as
`encryptedSize` in the metadata. -/
theorem combined_ciphertext_length (Eb Hd : List Nat → List Nat)
    (hE16 : ∀ blk : List Nat, blk.length = 16 → (Eb blk).length = 16)
    (c : AffineCipher) (iv B : List Nat) :
    (combinedEncrypt Eb Hd c iv B).1.length = 16 * (B.length / 16 + 1) ∧
    (combinedEncrypt Eb Hd c iv B).1.length = B.length + (16 - B.length % 16) ∧
    (combinedEncrypt Eb Hd c iv B).2.encryptedSize = (combinedEncrypt Eb Hd c iv B).1.length ∧
    B.length < (combinedEncrypt Eb Hd c iv B).1.length ∧
    (combinedEncrypt Eb Hd c iv B).1.length % 16 = 0 ∧
    0 < (combinedEncrypt Eb Hd c iv B).1.length := by
  have hlen : (combinedEncrypt Eb Hd c iv B).1.length = (pkcs7pad (c.encryptBuf B)).length := by
    show (cbcEncrypt Eb (normalize16 iv) (c.encryptBuf B)).length = _
    exact cbcEncrypt_length Eb hE16 (normalize16 iv) (c.encryptBuf B) (normalize16_length iv)
  have haff : (c.encryptBuf B).length = B.length := by
    simp [AffineCipher.encryptBuf]
  have h1 := pkcs7pad_length_eq (c.encryptBuf B)
  have h2 := pkcs7pad_length (c.encryptBuf B)
  rw [haff] at h1 h2
  have hmod : B.length % 16 < 16 := Nat.mod_lt _ (by norm_num)
  have hdm : 16 * (B.length / 16) + B.length % 16 = B.length := Nat.div_add_mod _ _
  refine ⟨by omega, by omega, rfl, by omega, by omega, by omega⟩

theorem combined_ciphertext_length_witness :
    (combinedEncrypt id id aff58 (List.replicate 16 0) [1, 2, 3]).1.length
        = 16 * (([1, 2, 3] : List Nat).length / 16 + 1) ∧
    (combinedEncrypt id id aff58 (List.replicate 16 0) [1, 2, 3]).1.length
        = ([1, 2, 3] : List Nat).length + (16 - ([1, 2, 3] : List Nat).length % 16) ∧
    (combinedEncrypt id id aff58 (List.replicate 16 0) [1, 2, 3]).2.encryptedSize
        = (combinedEncrypt id id aff58 (List.replicate 16 0) [1, 2, 3]).1.length ∧
    ([1, 2, 3] : List Nat).length
        < (combinedEncrypt id id aff58 (List.replicate 16 0) [1, 2, 3]).1.length ∧
    (combinedEncrypt id id aff58 (List.replicate 16 0) [1, 2, 3]).1.length % 16 = 0 ∧
    0 < (combinedEncrypt id id aff58 (List.replicate 16 0) [1, 2, 3]).1.length :=
  combined_ciphertext_length id id (fun _ h => h) aff58 (List.replicate 16 0) [1, 2, 3]

/-- C4: the stored artifact is the 16-byte IV recorded in the metadata
followed by the ciphertext, and standalone decryption of that
concatenated buffer — slicing the first 16 bytes as IV, the remainder as
ciphertext, with no separate metadata — recovers exactly `B`. -/
theorem container_standalone_roundtrip
    (Eb Db Hd : List Nat → List Nat)
    (hE16 : ∀ blk : List Nat, blk.length = 16 → (Eb blk).length = 16)
    (hED : ∀ blk : List Nat, blk.length = 16 → Db (Eb blk) = blk)
    (a b : Nat) (c : AffineCipher) (ha : Nat.gcd a 256 = 1) (hb : b < 256)
    (hc : AffineCipher.make a b 256 = some c)
    (iv B : List Nat) (hB : ∀ x ∈ B, x < 256) :
    encryptFileContainer Eb Hd c iv B
        = (combinedEncrypt Eb Hd c iv B).2.iv ++ (combinedEncrypt Eb Hd c iv B).1 ∧
    decryptUploadedFile Db c (encryptFileContainer Eb Hd c iv B) = .ok B := by
  obtain ⟨hinv, hbm, hm256⟩ := make256_facts a b c ha hb hc
  refine ⟨rfl, ?_⟩
  have hivlen : (combinedEncrypt Eb Hd c iv B).2.iv.length = 16 := normalize16_length iv
  have hcont : encryptFileContainer Eb Hd c iv B
      = (combinedEncrypt Eb Hd c iv B).2.iv ++ (combinedEncrypt Eb Hd c iv B).1 := rfl
  rw [decryptUploadedFile, hcont]
  rw [if_neg (by simp [List.length_append, hivlen])]
  rw [List.take_left' hivlen, List.drop_left' hivlen]
  rw [pipelineRoundtripAux Eb Db Hd hE16 hED c hinv hbm hm256 iv B hB]

theorem container_standalone_roundtrip_witness :
    Nat.gcd 5 256 = 1 ∧ 8 < 256 ∧
    decryptUploadedFile id aff58
      (encryptFileContainer id id aff58 (List.replicate 16 7) [10, 20, 30, 40])
      = .ok [10, 20, 30, 40] :=
  ⟨by decide, by decide,
    (container_standalone_roundtrip id id id (fun _ h => h) (fun _ _ => rfl)
      5 8 aff58 (by decide) (by decide) make_aff58
      (List.replicate 16 7) [10, 20, 30, 40] (by decide)).2⟩

/-- C8: a container shorter than 16 bytes — too short to contain an IV —
is rejected by the standalone decryption path with the malformed
container error, before any decryption is attempted. -/
theorem short_container_rejected (Db : List Nat → List Nat)
    (c : AffineCipher) (data : List Nat) (h : data.length < 16) :
    decryptUploadedFile Db c data = .error .malformedContainer := by
  rw [decryptUploadedFile, if_pos h]

theorem short_container_rejected_witness :
    ([0, 1, 2] : List Nat).length < 16 ∧
    decryptUploadedFile id aff58 [0, 1, 2] = .error .malformedContainer :=
  ⟨by decide, short_container_rejected id aff58 [0, 1, 2] (by decide)⟩

/-- C3: on the stored-file decryption path, when metadata with a
checksum is available, the recovered plaintext's digest is recomputed
and compared to the stored checksum, failing with the integrity error on
mismatch.  Consequently, for a checksum recorded as the digest of `B` by
encryption, and a digest with no collision against `B`, decryption of
ANY ciphertext container (in particular one altered in a single bit)
either fails — with the block layer's bad-padding decryption error or
with the integrity error — or returns exactly `B`; incorrect plaintext
is never silently returned as valid. -/
theorem stored_decrypt_never_silently_corrupt
    (Db Hd : List Nat → List Nat) (c : AffineCipher)
    (B chk fileWithIV : List Nat)
    (hchk : chk = Hd B)
    (hColl : ∀ Q : List Nat, Hd Q = Hd B → Q = B) :
    match decryptStoredFile Db Hd c fileWithIV (some chk) with
    | .ok plain => plain = B
    | .error e => e = PipelineError.decryptionError ∨ e = PipelineError.integrityError := by
  rw [decryptStoredFile]
  cases hcd : combinedDecrypt Db c (fileWithIV.drop 16) (fileWithIV.take 16) with
  | none => exact Or.inl rfl
  | some plain =>
      dsimp only
      by_cases hHP : Hd plain = chk
      · rw [if_pos hHP]
        exact hColl plain (hchk ▸ hHP)
      · rw [if_neg hHP]
        exact Or.inr rfl

theorem stored_decrypt_never_silently_corrupt_witness :
    match decryptStoredFile id id aff58
        (List.replicate 16 0 ++ List.replicate 16 16) (some [1, 2]) with
    | .ok plain => plain = [1, 2]
    | .error e => e = PipelineError.decryptionError ∨ e = PipelineError.integrityError :=
  stored_decrypt_never_silently_corrupt id id aff58 [1, 2] [1, 2]
    (List.replicate 16 0 ++ List.replicate 16 16) rfl (fun _ h => h)

/-- C7 (the claim fails on string keys): the `AriaCipher` constructor's
own comment says the key is coerced to exactly 16 bytes, and for buffer
keys it is; but for string keys the code pads/truncates to 16
*characters* before UTF-8 encoding, so a key containing a non-ASCII
character — here the one-character string b'e-acute' — is stored as 17
bytes. -/
theorem string_key_not_16_bytes :
    (keyFromString ['é']).length = 17 ∧ (keyFromString ['é']).length ≠ 16 ∧
    (∀ key : List Nat, (keyFromBuffer key).length = 16) :=
  ⟨by decide, by decide, fun key => normalize16_length key⟩
